import Mathlib

/-!
Shallow embedding of the binning engine in src/binners.c (xcms).

Doubles are modelled as exact rationals; the missing-value sentinel NA_REAL
is modelled by the type Option: a y value of none is NA, and a bin value of
none is a still-missing bin.  Machine ints are modelled as integers where
negative values can reach the code (indices, method selector, shift flag)
and as naturals where they cannot (bin counts, cursor positions after the
validation that guarantees them nonnegative).
-/

/-- Fold step of the max reducer, mirroring the body of
the inner conditional of the C function at src/binners.c lines 283-286:
if the bin value is NA it is replaced by the sample value, otherwise it is
replaced only when the sample value is strictly larger. -/
def maxFold (a : Option ℚ) (v : ℚ) : Option ℚ :=
  match a with
  | none => some v
  | some w => if v > w then some v else some w

/-- Fold step of the min reducer, mirroring src/binners.c lines 323-326. -/
def minFold (a : Option ℚ) (v : ℚ) : Option ℚ :=
  match a with
  | none => some v
  | some w => if v < w then some v else some w

/-- Fold step of the sum reducer, mirroring src/binners.c lines 363-369;
the mean reducer accumulates with the same rule (lines 409-414). -/
def sumFold (a : Option ℚ) (v : ℚ) : Option ℚ :=
  match a with
  | none => some v
  | some w => some (w + v)

/-- Inner while loop shared verbatim by the four scan functions of
src/binners.c (lines 270-295 for max and the
identical copies for min, sum, mean).  The loop advances a cursor c over x
while c has not passed the inclusive end index e; a sample with x value at
least brks[i] is folded into the accumulator of bin i when it is below
brks[i+1], or equal to it in the last bin; a sample at or above the upper
border otherwise stops the loop without consuming the cursor; a sample below
brks[i] is consumed without folding.  NA samples are consumed without
folding.  The counter cnt models the per-bin element counter el_count used
by the mean variant and is simply ignored by the other three.  The fuel
argument is the number of loop iterations still possible, e + 1 - c at
entry; each iteration consumes one unit together with one cursor step, so
the fuel never runs out before the condition c > e does. -/
def binInner (fold : Option ℚ → ℚ → Option ℚ) (x : List ℚ) (y : List (Option ℚ))
    (brks : List ℚ) (last_bin_idx i e : ℕ) :
    ℕ → ℕ → Option ℚ → ℕ → Option ℚ × ℕ × ℕ
  | 0, c, a, cnt => (a, cnt, c)
  | fuel + 1, c, a, cnt =>
    if e < c then (a, cnt, c)
    else if brks.getD i 0 ≤ x.getD c 0 then
      if x.getD c 0 < brks.getD (i+1) 0 ∨
          (x.getD c 0 = brks.getD (i+1) 0 ∧ i = last_bin_idx) then
        match y.getD c none with
        | none => binInner fold x y brks last_bin_idx i e fuel (c+1) a cnt
        | some v => binInner fold x y brks last_bin_idx i e fuel (c+1) (fold a v) (cnt+1)
      else (a, cnt, c)
    else binInner fold x y brks last_bin_idx i e fuel (c+1) a cnt

/-- Outer for loop over the bins shared by the four scan functions of
src/binners.c (lines 268-296 for max): bin i receives the accumulator and
counter produced by the inner loop, which starts from the cursor position
left behind by the previous bin.  The argument k counts the bins still to
be produced; a full scan of n_bin bins starts at i = 0, k = n_bin, with the
cursor at the callers start index. -/
def binOuter (fold : Option ℚ → ℚ → Option ℚ) (x : List ℚ) (y : List (Option ℚ))
    (brks : List ℚ) (last_bin_idx e : ℕ) :
    ℕ → ℕ → ℕ → List (Option ℚ × ℕ)
  | _, 0, _ => []
  | i, k + 1, c =>
    match binInner fold x y brks last_bin_idx i e (e + 1 - c) c none 0 with
    | (a, cnt, c2) => (a, cnt) :: binOuter fold x y brks last_bin_idx e (i+1) k c2

/-- Translation of the static C function at src/binners.c lines 259-298:
scan of x and y over the given breaks with the max reducer, on the bins
initialised to NA by the caller. -/
def _bin_y_on_x_with_breaks_max (x : List ℚ) (y : List (Option ℚ)) (brks : List ℚ)
    (n_bin x_start_idx x_end_idx : ℕ) : List (Option ℚ) :=
  (binOuter maxFold x y brks (n_bin - 1) x_end_idx 0 n_bin x_start_idx).map Prod.fst

/-- Translation of the static C function at src/binners.c lines 300-338 (min). -/
def _bin_y_on_x_with_breaks_min (x : List ℚ) (y : List (Option ℚ)) (brks : List ℚ)
    (n_bin x_start_idx x_end_idx : ℕ) : List (Option ℚ) :=
  (binOuter minFold x y brks (n_bin - 1) x_end_idx 0 n_bin x_start_idx).map Prod.fst

/-- Translation of the static C function at src/binners.c lines 340-381 (sum). -/
def _bin_y_on_x_with_breaks_sum (x : List ℚ) (y : List (Option ℚ)) (brks : List ℚ)
    (n_bin x_start_idx x_end_idx : ℕ) : List (Option ℚ) :=
  (binOuter sumFold x y brks (n_bin - 1) x_end_idx 0 n_bin x_start_idx).map Prod.fst

/-- Translation of the static C function at src/binners.c lines 383-433 (mean):
accumulate exactly as the sum reducer while counting the non-missing samples
of each bin, then divide every bin whose counter is positive by its counter;
bins with counter 0 are left untouched. -/
def _bin_y_on_x_with_breaks_mean (x : List ℚ) (y : List (Option ℚ)) (brks : List ℚ)
    (n_bin x_start_idx x_end_idx : ℕ) : List (Option ℚ) :=
  (binOuter sumFold x y brks (n_bin - 1) x_end_idx 0 n_bin x_start_idx).map
    (fun p => if 0 < p.2 then Option.map (fun v => v / (p.2 : ℚ)) p.1 else p.1)

/-- Iterative accumulation loop producing k values starting at start and
stepping by step, as the C loops write brks[i] = current_val;
current_val += bin_size.  Over exact rationals the accumulated value after
i steps is exactly start + i * step. -/
def accumList (start step : ℚ) : ℕ → List ℚ
  | 0 => []
  | k + 1 => start :: accumList (start + step) step k

/-- Translation of the C function at src/binners.c lines 206-225: breaks on a
requested number of bins.  The shift flag is kept as the integer the C code
receives; it enters the bin size denominator numerically and the start
shift through the comparison shift > 0, exactly as in the source. -/
def _breaks_on_nBins (from_val to_val : ℚ) (n_bin : ℕ)
    (shift_by_half_bin_size : ℤ) : List ℚ :=
  accumList
    (if shift_by_half_bin_size > 0 then
      from_val - (to_val - from_val) / ((n_bin : ℚ) - (shift_by_half_bin_size : ℚ)) / 2
    else from_val)
    ((to_val - from_val) / ((n_bin : ℚ) - (shift_by_half_bin_size : ℚ)))
    (n_bin + 1)

/-- Translation of the C function at src/binners.c lines 230-244: breaks on a
requested bin size; the first n_bin entries accumulate from from_val by
bin_size, and the final entry is forced to exactly to_val. -/
def _breaks_on_binSize (from_val to_val : ℚ) (n_bin : ℕ) (bin_size : ℚ) : List ℚ :=
  accumList from_val bin_size n_bin ++ [to_val]

/-- Translation of the static C function at src/binners.c lines 438-443:
bin midpoints from adjacent break pairs. -/
def _bin_midPoint (brks : List ℚ) (n_bin : ℕ) : List ℚ :=
  (List.range n_bin).map (fun i => (brks.getD i 0 + brks.getD (i+1) 0) / 2)

/-- Substitution of the default fill value for still-missing bins, mirroring
src/binners.c lines 129-134: performed only when the supplied init value is
itself not NA. -/
def fill_na (ans : List (Option ℚ)) (initValue : Option ℚ) : List (Option ℚ) :=
  match initValue with
  | none => ans
  | some iv => ans.map (fun a => some (a.getD iv))

/-- Method dispatch switch of src/binners.c lines 109-125: 2 selects min,
3 sum, 4 mean, and every other method value falls to the default case, max. -/
def bin_dispatch (method : ℤ) (x : List ℚ) (y : List (Option ℚ)) (brks : List ℚ)
    (n_bin s e : ℕ) : List (Option ℚ) :=
  if method = 2 then _bin_y_on_x_with_breaks_min x y brks n_bin s e
  else if method = 3 then _bin_y_on_x_with_breaks_sum x y brks n_bin s e
  else if method = 4 then _bin_y_on_x_with_breaks_mean x y brks n_bin s e
  else _bin_y_on_x_with_breaks_max x y brks n_bin s e

/-- Packaging of the two result vectors of binYonX (src/binners.c lines
101-147): the midpoints of the resolved breaks, paired with the scanned and
default-filled aggregate vector. -/
def binResult (x : List ℚ) (y : List (Option ℚ)) (brks : List ℚ) (n_bin : ℕ)
    (s e : ℕ) (method : ℤ) (initValue : Option ℚ) : List ℚ × List (Option ℚ) :=
  (_bin_midPoint brks n_bin, fill_na (bin_dispatch method x y brks n_bin s e) initValue)

/-- Shift of the lower range bound applied in the binSize branch of binYonX
(src/binners.c lines 89-91) before the bin count is derived. -/
def binSize_from_x (binSize fromX : ℚ) (shift : ℤ) : ℚ :=
  if shift > 0 then fromX - binSize / 2 else fromX

/-- Translation of the R entry point binYonX at src/binners.c lines 43-156.
The breaks argument is an Option: none models the NA first element that
makes the C code fall through to the nBins and binSize modes, and likewise
for nBins.  Index validation happens first; then breaks are resolved from
one of the three modes; then the selected reducer scans, NA bins receive
the default fill value when one is supplied, and the midpoints are paired
with the aggregates.  Errors are returned as Except.error with the message
of the corresponding C error call (quotes stripped). -/
def binYonX (x : List ℚ) (y : List (Option ℚ)) (breaks : Option (List ℚ))
    (nBins : Option ℤ) (binSize : ℚ) (fromX toX : ℚ) (fromIdx toIdx : ℤ)
    (shiftByHalfBinSize : ℤ) (initValue : Option ℚ) (method : ℤ) :
    Except String (List ℚ × List (Option ℚ)) :=
  if fromIdx < 0 ∨ toIdx < 0 then
    Except.error "fromIdx and toIdx have to be >= 0!"
  else if fromIdx > toIdx then
    Except.error "fromIdx has to be smaller than toIdx!"
  else if (x.length : ℤ) ≤ toIdx then
    Except.error "toIdx can not be larger than length(x)!"
  else
    match breaks with
    | some brks =>
      if brks.length - 1 < 1 then
        Except.error "Not enough breaks defined!"
      else
        Except.ok (binResult x y brks (brks.length - 1)
          fromIdx.toNat toIdx.toNat method initValue)
    | none =>
      match nBins with
      | some nb =>
        if nb ≤ 0 then
          Except.error "nBins must be larger 1!"
        else
          Except.ok (binResult x y
            (_breaks_on_nBins fromX toX nb.toNat shiftByHalfBinSize)
            nb.toNat fromIdx.toNat toIdx.toNat method initValue)
      | none =>
        if binSize < 0 then
          Except.error "binSize has to be > 0!"
        else
          Except.ok (binResult x y
            (_breaks_on_binSize (binSize_from_x binSize fromX shiftByHalfBinSize) toX
              (⌈(toX - binSize_from_x binSize fromX shiftByHalfBinSize) / binSize⌉).toNat
              binSize)
            (⌈(toX - binSize_from_x binSize fromX shiftByHalfBinSize) / binSize⌉).toNat
            fromIdx.toNat toIdx.toNat method initValue)

/-- Translation of the R entry point breaks_on_nBins at src/binners.c lines
167-178: breaks from a bin count, always unshifted. -/
def breaks_on_nBins (fromX toX : ℚ) (nBins : ℕ) : List ℚ :=
  _breaks_on_nBins fromX toX nBins 0

/-- Translation of the R entry point breaks_on_binSize at src/binners.c lines
183-195: the bin count is the ceiling of the range over the bin size. -/
def breaks_on_binSize (fromX toX binSize : ℚ) : List ℚ :=
  _breaks_on_binSize fromX toX (⌈(toX - fromX) / binSize⌉).toNat binSize

/-!
Helper lemmas shared by the claim theorems.
-/

/-- Closed form of the iterative break accumulation: over exact rationals the
value written at position i is start + i * step. -/
theorem accumList_eq_map (st : ℚ) (k : ℕ) :
    ∀ s : ℚ, accumList s st k = (List.range k).map (fun i : ℕ => s + (i : ℚ) * st) := by
  induction k with
  | zero => intro s; simp [accumList]
  | succ k ih =>
    intro s
    rw [accumList, ih (s + st), List.range_succ_eq_map, List.map_cons, List.map_map]
    congr 1
    · push_cast
      ring
    · apply List.map_congr_left
      intro i _
      simp only [Function.comp_apply]
      push_cast
      ring

/-- Reading a mapped range list inside its bounds evaluates the map. -/
theorem getD_map_range {α : Type} (f : ℕ → α) (d : α) {n i : ℕ} (h : i < n) :
    ((List.range n).map f).getD i d = f i := by
  rw [List.getD_eq_getElem?_getD, List.getElem?_map, List.getElem?_range h]
  rfl

/-- Outer scan loop produces exactly one accumulator pair per remaining bin. -/
theorem binOuter_length (fold : Option ℚ → ℚ → Option ℚ) (x : List ℚ)
    (y : List (Option ℚ)) (brks : List ℚ) (last e : ℕ) :
    ∀ (k i c : ℕ), (binOuter fold x y brks last e i k c).length = k := by
  intro k
  induction k with
  | zero => intro i c; rfl
  | succ k ih =>
    intro i c
    rcases hbi : binInner fold x y brks last i e (e + 1 - c) c none 0 with ⟨a, cnt, c2⟩
    simp [binOuter, hbi, ih]

/-- Midpoint vector has one entry per bin. -/
theorem _bin_midPoint_length (brks : List ℚ) (n : ℕ) :
    (_bin_midPoint brks n).length = n := by
  simp [_bin_midPoint]

/-- Default fill never changes the length of the aggregate vector. -/
theorem fill_na_length (ans : List (Option ℚ)) (iv : Option ℚ) :
    (fill_na ans iv).length = ans.length := by
  cases iv <;> simp [fill_na]

/-- Every reducer produces one aggregate per bin. -/
theorem bin_dispatch_length (m : ℤ) (x : List ℚ) (y : List (Option ℚ))
    (brks : List ℚ) (n s e : ℕ) : (bin_dispatch m x y brks n s e).length = n := by
  unfold bin_dispatch _bin_y_on_x_with_breaks_min _bin_y_on_x_with_breaks_sum
    _bin_y_on_x_with_breaks_mean _bin_y_on_x_with_breaks_max
  split
  · simp [binOuter_length]
  · split
    · simp [binOuter_length]
    · split
      · simp [binOuter_length]
      · simp [binOuter_length]

/-- Inner loop invariant: the accumulator can only leave the missing state
together with an increment of the element counter, so a zero counter on exit
means the accumulator is still missing. -/
theorem binInner_cnt_zero (fold : Option ℚ → ℚ → Option ℚ) (x : List ℚ)
    (y : List (Option ℚ)) (brks : List ℚ) (last i e : ℕ) :
    ∀ (fuel c : ℕ) (a : Option ℚ) (cnt : ℕ), (cnt = 0 → a = none) →
      ((binInner fold x y brks last i e fuel c a cnt).2.1 = 0 →
        (binInner fold x y brks last i e fuel c a cnt).1 = none) := by
  intro fuel
  induction fuel with
  | zero => intro c a cnt h0 h; exact h0 h
  | succ fuel ih =>
    intro c a cnt h0
    by_cases h1 : e < c
    · simp only [binInner, if_pos h1]
      exact h0
    · by_cases h2 : brks.getD i 0 ≤ x.getD c 0
      · by_cases h3 : x.getD c 0 < brks.getD (i+1) 0 ∨
            (x.getD c 0 = brks.getD (i+1) 0 ∧ i = last)
        · cases hy : y.getD c none with
          | none =>
            simp only [binInner, if_neg h1, if_pos h2, if_pos h3, hy]
            exact ih (c+1) a cnt h0
          | some v =>
            simp only [binInner, if_neg h1, if_pos h2, if_pos h3, hy]
            exact ih (c+1) (fold a v) (cnt+1)
              (fun hc => absurd hc (Nat.succ_ne_zero cnt))
        · simp only [binInner, if_neg h1, if_pos h2, if_neg h3]
          exact h0
      · simp only [binInner, if_neg h1, if_neg h2]
        exact ih (c+1) a cnt h0

/-- Scan invariant lifted to the bin list: a bin whose element counter is
zero still holds the missing sentinel. -/
theorem binOuter_cnt_zero (fold : Option ℚ → ℚ → Option ℚ) (x : List ℚ)
    (y : List (Option ℚ)) (brks : List ℚ) (last e : ℕ) :
    ∀ (k i c j : ℕ),
      ((binOuter fold x y brks last e i k c).getD j (none, 0)).2 = 0 →
      ((binOuter fold x y brks last e i k c).getD j (none, 0)).1 = none := by
  intro k
  induction k with
  | zero => intro i c j _; rfl
  | succ k ih =>
    intro i c j
    rcases hbi : binInner fold x y brks last i e (e + 1 - c) c none 0 with ⟨a, cnt, c2⟩
    cases j with
    | zero =>
      simp only [binOuter, hbi, List.getD_cons_zero]
      intro h
      have h2 := binInner_cnt_zero fold x y brks last i e (e + 1 - c) c none 0
        (fun _ => rfl)
      rw [hbi] at h2
      exact h2 h
    | succ j =>
      simp only [binOuter, hbi, List.getD_cons_succ]
      exact ih (i+1) c2 j

/-- Mean reducer on a bin with a zero element counter: the final division is
skipped and the bin keeps the missing sentinel. -/
theorem mean_cnt_zero (x : List ℚ) (y : List (Option ℚ)) (brks : List ℚ)
    (n s e j : ℕ) :
    ((binOuter sumFold x y brks (n - 1) e 0 n s).getD j (none, 0)).2 = 0 →
    (_bin_y_on_x_with_breaks_mean x y brks n s e).getD j none = none := by
  intro h
  unfold _bin_y_on_x_with_breaks_mean
  rw [List.getD_eq_getElem?_getD, List.getElem?_map]
  cases hj : (binOuter sumFold x y brks (n - 1) e 0 n s)[j]? with
  | none => rfl
  | some p =>
    have hp : (binOuter sumFold x y brks (n - 1) e 0 n s).getD j (none, 0) = p := by
      rw [List.getD_eq_getElem?_getD, hj]
      rfl
    rw [hp] at h
    have h1 := binOuter_cnt_zero sumFold x y brks (n - 1) e n 0 s j
    rw [hp] at h1
    have h2 : p.1 = none := h1 h
    simp [h, h2]

/-!
Claim theorems.
-/

/-- C1: on x = [1,2,3,4], y = [10,20,30,40], breaks = [1,3,5], start index 0
and end index 3, samples with x in the half-open bin [1,3) land in bin 0 and
samples with x in the closed last bin [3,5] land in bin 1, so the aggregates
are max = [20,40], min = [10,30], sum = [30,70], mean = [15,35]. -/
theorem binYonX_small_dataset_aggregates :
    binYonX [1, 2, 3, 4] [some 10, some 20, some 30, some 40] (some [1, 3, 5])
        none 0 0 0 0 3 0 none 1 = Except.ok ([2, 4], [some 20, some 40]) ∧
    binYonX [1, 2, 3, 4] [some 10, some 20, some 30, some 40] (some [1, 3, 5])
        none 0 0 0 0 3 0 none 2 = Except.ok ([2, 4], [some 10, some 30]) ∧
    binYonX [1, 2, 3, 4] [some 10, some 20, some 30, some 40] (some [1, 3, 5])
        none 0 0 0 0 3 0 none 3 = Except.ok ([2, 4], [some 30, some 70]) ∧
    binYonX [1, 2, 3, 4] [some 10, some 20, some 30, some 40] (some [1, 3, 5])
        none 0 0 0 0 3 0 none 4 = Except.ok ([2, 4], [some 15, some 35]) := by
  refine ⟨?_, ?_, ?_, ?_⟩
  all_goals
    norm_num [binYonX, binResult, bin_dispatch, fill_na, _bin_midPoint,
      _bin_y_on_x_with_breaks_max, _bin_y_on_x_with_breaks_min,
      _bin_y_on_x_with_breaks_sum, _bin_y_on_x_with_breaks_mean,
      binOuter, binInner, maxFold, minFold, sumFold, List.range_succ]

/-- C4 counterexample: in bin-count mode with the half-bin shift, fromX = 0,
toX = 10, nBins = 5, the generated break sequence is not the claimed
[-1.25, 1.0, 3.25, 5.5, 7.75, 10.0]: the code steps by 2.5 from -1.25, so
already the second break differs. -/
theorem breaks_on_nBins_shifted_claim_false :
    _breaks_on_nBins 0 10 5 1 ≠ [-(5/4 : ℚ), 1, 13/4, 11/2, 31/4, 10] := by
  norm_num [_breaks_on_nBins, accumList]

/-- C4 amended: in bin-count mode with the half-bin shift, fromX = 0,
toX = 10, nBins = 5, the step is (toX - fromX) / (nBins - 1) = 2.5, the
first boundary is fromX - step / 2 = -1.25, and the generated break
sequence is [-1.25, 1.25, 3.75, 6.25, 8.75, 11.25]. -/
theorem breaks_on_nBins_shifted_value :
    _breaks_on_nBins 0 10 5 1 = [-(5/4 : ℚ), 5/4, 15/4, 25/4, 35/4, 45/4] := by
  norm_num [_breaks_on_nBins, accumList]

/-- C7: binYonX in bin-size mode rejects a negative binSize with the
InvalidArgument error, but a binSize of exactly 0 passes the validation
(the code compares with strict less-than although its own error message
demands a value greater than 0) and the call goes on to compute, so the
claim that binSize non-positive always fails is violated by the code at
binSize = 0. -/
theorem binYonX_binSize_zero_not_rejected :
    binYonX [1] [some 1] none none (-1) 0 10 0 0 0 none 1 =
      Except.error "binSize has to be > 0!" ∧
    (binYonX [1] [some 1] none none 0 0 10 0 0 0 none 1).isOk = true := by
  constructor
  · norm_num [binYonX]
  · norm_num [binYonX, Except.isOk, Except.toBool]

/-- C3: in bin-size mode the number of bins is the ceiling of
(toX - fromX) / binSize, the first nBins boundaries are fromX + k * binSize,
and the final boundary is forced to exactly toX; in particular the call
with fromX = 0, toX = 10, binSize = 3 yields the five boundaries
[0, 3, 6, 9, 10]. -/
theorem breaks_on_binSize_spec :
    (∀ f t s : ℚ, breaks_on_binSize f t s =
      (List.range ((⌈(t - f) / s⌉ : ℤ)).toNat).map (fun k : ℕ => f + (k : ℚ) * s)
        ++ [t]) ∧
    breaks_on_binSize 0 10 3 = [0, 3, 6, 9, 10] := by
  constructor
  · intro f t s
    rw [breaks_on_binSize, _breaks_on_binSize, accumList_eq_map]
  · have h4 : ((⌈((10 : ℚ) - 0) / 3⌉ : ℤ)).toNat = 4 := by
      have h : (⌈((10 : ℚ) - 0) / 3⌉ : ℤ) = 4 := by
        rw [Int.ceil_eq_iff]
        norm_num
      rw [h]
      rfl
    rw [breaks_on_binSize, h4]
    norm_num [_breaks_on_binSize, accumList]

/-- C5: in bin-count mode without the half-bin shift the generated breaks
are nBins + 1 points from fromX stepping by (toX - fromX) / nBins; in
particular the call with fromX = 0, toX = 10, nBins = 5 yields
[0, 2, 4, 6, 8, 10]. -/
theorem breaks_on_nBins_unshifted_spec :
    (∀ (f t : ℚ) (n : ℕ), breaks_on_nBins f t n =
      (List.range (n + 1)).map (fun i : ℕ => f + (i : ℚ) * ((t - f) / (n : ℚ)))) ∧
    breaks_on_nBins 0 10 5 = [0, 2, 4, 6, 8, 10] := by
  constructor
  · intro f t n
    rw [breaks_on_nBins, _breaks_on_nBins, if_neg (by norm_num), accumList_eq_map]
    simp
  · norm_num [breaks_on_nBins, _breaks_on_nBins, accumList]

/-- C6: all four reducers skip samples whose y value is missing (with
y = [NA, 20, 30, 40] over breaks [1,3,5] the bin 0 aggregate equals 20 under
max, min, sum and mean), and the mean reducer divides only bins whose
non-missing sample counter is positive: a bin whose counter stayed 0 keeps
the missing sentinel and is never divided by zero. -/
theorem reducers_skip_missing :
    binYonX [1, 2, 3, 4] [none, some 20, some 30, some 40] (some [1, 3, 5])
        none 0 0 0 0 3 0 none 1 = Except.ok ([2, 4], [some 20, some 40]) ∧
    binYonX [1, 2, 3, 4] [none, some 20, some 30, some 40] (some [1, 3, 5])
        none 0 0 0 0 3 0 none 2 = Except.ok ([2, 4], [some 20, some 30]) ∧
    binYonX [1, 2, 3, 4] [none, some 20, some 30, some 40] (some [1, 3, 5])
        none 0 0 0 0 3 0 none 3 = Except.ok ([2, 4], [some 20, some 70]) ∧
    binYonX [1, 2, 3, 4] [none, some 20, some 30, some 40] (some [1, 3, 5])
        none 0 0 0 0 3 0 none 4 = Except.ok ([2, 4], [some 20, some 35]) ∧
    ∀ (x : List ℚ) (y : List (Option ℚ)) (brks : List ℚ) (n s e j : ℕ),
      ((binOuter sumFold x y brks (n - 1) e 0 n s).getD j (none, 0)).2 = 0 →
      (_bin_y_on_x_with_breaks_mean x y brks n s e).getD j none = none := by
  refine ⟨?_, ?_, ?_, ?_, mean_cnt_zero⟩
  all_goals
    norm_num [binYonX, binResult, bin_dispatch, fill_na, _bin_midPoint,
      _bin_y_on_x_with_breaks_max, _bin_y_on_x_with_breaks_min,
      _bin_y_on_x_with_breaks_sum, _bin_y_on_x_with_breaks_mean,
      binOuter, binInner, maxFold, minFold, sumFold, List.range_succ]

/-- C6 witness: on a dataset whose y values are all missing, bin 0 of the
mean reducer has counter 0 and the mean output keeps the missing sentinel. -/
theorem reducers_skip_missing_witness :
    ((binOuter sumFold [1, 2] [none, none] [1, 3, 5] 1 1 0 2 0).getD 0 (none, 0)).2
        = 0 ∧
    (_bin_y_on_x_with_breaks_mean [1, 2] [none, none] [1, 3, 5] 2 0 1).getD 0 none
        = none := by
  constructor
  · norm_num [binOuter, binInner]
  · exact (reducers_skip_missing.2.2.2.2) [1, 2] [none, none] [1, 3, 5] 2 0 1 0
      (by norm_num [binOuter, binInner])

/-- C2: every successful call of binYonX with explicit breaks of length N+1
returns midpoints and aggregates both of length N, with each midpoint
exactly the average of the two adjacent breaks. -/
theorem binYonX_result_shape :
    ∀ (x : List ℚ) (y : List (Option ℚ)) (brks : List ℚ) (nBins : Option ℤ)
      (binSize fromX toX : ℚ) (fromIdx toIdx shift : ℤ) (init : Option ℚ)
      (method : ℤ) (mids : List ℚ) (ags : List (Option ℚ)),
      binYonX x y (some brks) nBins binSize fromX toX fromIdx toIdx shift init method
          = Except.ok (mids, ags) →
      mids.length = brks.length - 1 ∧ ags.length = brks.length - 1 ∧
        ∀ i, i < brks.length - 1 →
          mids.getD i 0 = (brks.getD i 0 + brks.getD (i+1) 0) / 2 := by
  intro x y brks nBins binSize fromX toX fromIdx toIdx shift init method mids ags h
  simp only [binYonX] at h
  split at h
  · simp at h
  · split at h
    · simp at h
    · split at h
      · simp at h
      · split at h
        · simp at h
        · rw [Except.ok.injEq] at h
          have hm : _bin_midPoint brks (brks.length - 1) = mids := congrArg Prod.fst h
          have ha : fill_na (bin_dispatch method x y brks (brks.length - 1)
              fromIdx.toNat toIdx.toNat) init = ags := congrArg Prod.snd h
          refine ⟨?_, ?_, ?_⟩
          · rw [← hm, _bin_midPoint_length]
          · rw [← ha, fill_na_length, bin_dispatch_length]
          · intro i hi
            rw [← hm, _bin_midPoint, getD_map_range _ _ hi]

/-- C2 witness: the shape property instantiated on the small dataset with
breaks [1, 3, 5]. -/
theorem binYonX_result_shape_witness :
    ([2, 4] : List ℚ).length = ([1, 3, 5] : List ℚ).length - 1 ∧
    ([some 20, some 40] : List (Option ℚ)).length = ([1, 3, 5] : List ℚ).length - 1 ∧
    ∀ i, i < ([1, 3, 5] : List ℚ).length - 1 →
      ([2, 4] : List ℚ).getD i 0 =
        (([1, 3, 5] : List ℚ).getD i 0 + ([1, 3, 5] : List ℚ).getD (i+1) 0) / 2 :=
  binYonX_result_shape [1, 2, 3, 4] [some 10, some 20, some 30, some 40] [1, 3, 5]
    none 0 0 0 0 3 0 none 1 [2, 4] [some 20, some 40]
    (by norm_num [binYonX, binResult, bin_dispatch, fill_na, _bin_midPoint,
      _bin_y_on_x_with_breaks_max, binOuter, binInner, maxFold, List.range_succ])

/-- C8: binYonX fails with one of the three index validation errors, before
any computation and returning no result, exactly when the start index is
negative, the end index is negative, the start index exceeds the end index,
or the end index is not less than the length of x; every other error or
success path implies these checks passed. -/
theorem binYonX_index_validation_iff :
    ∀ (x : List ℚ) (y : List (Option ℚ)) (breaks : Option (List ℚ))
      (nBins : Option ℤ) (binSize fromX toX : ℚ) (fromIdx toIdx shift : ℤ)
      (init : Option ℚ) (method : ℤ),
      (fromIdx < 0 ∨ toIdx < 0 ∨ fromIdx > toIdx ∨ (x.length : ℤ) ≤ toIdx) ↔
        (binYonX x y breaks nBins binSize fromX toX fromIdx toIdx shift init method =
            Except.error "fromIdx and toIdx have to be >= 0!" ∨
         binYonX x y breaks nBins binSize fromX toX fromIdx toIdx shift init method =
            Except.error "fromIdx has to be smaller than toIdx!" ∨
         binYonX x y breaks nBins binSize fromX toX fromIdx toIdx shift init method =
            Except.error "toIdx can not be larger than length(x)!") := by
  intro x y breaks nBins binSize fromX toX fromIdx toIdx shift init method
  constructor
  · intro h
    by_cases h1 : fromIdx < 0 ∨ toIdx < 0
    · left
      unfold binYonX
      rw [if_pos h1]
    · by_cases h2 : fromIdx > toIdx
      · right; left
        unfold binYonX
        rw [if_neg h1, if_pos h2]
      · have h3 : (x.length : ℤ) ≤ toIdx := by
          push_neg at h1
          omega
        right; right
        unfold binYonX
        rw [if_neg h1, if_neg h2, if_pos h3]
  · intro h
    by_contra hc
    push_neg at hc
    obtain ⟨hc1, hc2, hc3, hc4⟩ := hc
    unfold binYonX at h
    rw [if_neg (by omega : ¬(fromIdx < 0 ∨ toIdx < 0)),
      if_neg (by omega : ¬fromIdx > toIdx),
      if_neg (by omega : ¬(x.length : ℤ) ≤ toIdx)] at h
    rcases h with h | h | h <;> (repeat' split at h) <;> simp_all

/-- C9: a sample inside the start/end window whose x value lies below the
first break is silently skipped by the scan: the full scan starting at that
sample equals the full scan starting one position later, so the low sample
contributes to no bin, no error is possible (the scan is total), and the
later samples are assigned to their bins exactly as they would be without
the low sample.  The statement covers all four reducers at once through the
shared scan skeleton. -/
theorem binOuter_skips_low_samples :
    ∀ (fold : Option ℚ → ℚ → Option ℚ) (x : List ℚ) (y : List (Option ℚ))
      (brks : List ℚ) (n_bin s e : ℕ), s ≤ e → 0 < n_bin →
      x.getD s 0 < brks.getD 0 0 →
      binOuter fold x y brks (n_bin - 1) e 0 n_bin s =
        binOuter fold x y brks (n_bin - 1) e 0 n_bin (s + 1) := by
  intro fold x y brks n_bin s e hse hn hlow
  obtain ⟨k, rfl⟩ : ∃ k, n_bin = k + 1 := ⟨n_bin - 1, by omega⟩
  have key : binInner fold x y brks (k + 1 - 1) 0 e (e + 1 - s) s none 0 =
      binInner fold x y brks (k + 1 - 1) 0 e (e + 1 - (s + 1)) (s + 1) none 0 := by
    have h1 : e + 1 - s = (e - s) + 1 := by omega
    have h2 : e + 1 - (s + 1) = e - s := by omega
    rw [h1, h2]
    simp only [binInner]
    rw [if_neg (by omega : ¬ e < s), if_neg (not_le.mpr hlow)]
  simp only [binOuter, key]

/-- C9 witness: with breaks [1, 3, 5] and x = [0, 2, 4], the sample at
x = 0 is below the first break; scanning from index 0 equals scanning from
index 1. -/
theorem binOuter_skips_low_samples_witness :
    (0 : ℕ) ≤ 2 ∧ (0 : ℕ) < 2 ∧
    ([0, 2, 4] : List ℚ).getD 0 0 < ([1, 3, 5] : List ℚ).getD 0 0 ∧
    binOuter maxFold [0, 2, 4] [some 5, some 20, some 40] [1, 3, 5] 1 2 0 2 0 =
      binOuter maxFold [0, 2, 4] [some 5, some 20, some 40] [1, 3, 5] 1 2 0 2 1 := by
  refine ⟨by norm_num, by norm_num, by norm_num [List.getD_cons_zero], ?_⟩
  exact binOuter_skips_low_samples maxFold [0, 2, 4] [some 5, some 20, some 40]
    [1, 3, 5] 2 0 2 (by norm_num) (by norm_num) (by norm_num [List.getD_cons_zero])

/-- C10: every method selector other than 2 (min), 3 (sum) and 4 (mean)
falls to the default switch case and aggregates with the max reducer, so
any such method value produces exactly the output of the documented max
code 1 on the same inputs. -/
theorem binYonX_method_defaults_to_max :
    ∀ (x : List ℚ) (y : List (Option ℚ)) (breaks : Option (List ℚ))
      (nBins : Option ℤ) (binSize fromX toX : ℚ) (fromIdx toIdx shift : ℤ)
      (init : Option ℚ) (method : ℤ), method ≠ 2 → method ≠ 3 → method ≠ 4 →
      binYonX x y breaks nBins binSize fromX toX fromIdx toIdx shift init method =
        binYonX x y breaks nBins binSize fromX toX fromIdx toIdx shift init 1 := by
  intro x y breaks nBins binSize fromX toX fromIdx toIdx shift init method h2 h3 h4
  have key : ∀ (brks : List ℚ) (n s e : ℕ),
      bin_dispatch method x y brks n s e = bin_dispatch 1 x y brks n s e := by
    intro brks n s e
    unfold bin_dispatch
    rw [if_neg h2, if_neg h3, if_neg h4, if_neg (by norm_num : ¬(1 : ℤ) = 2),
      if_neg (by norm_num : ¬(1 : ℤ) = 3), if_neg (by norm_num : ¬(1 : ℤ) = 4)]
  unfold binYonX binResult
  simp only [key]

/-- C10 witness: the out-of-range method selector 7 produces the same output
as the max selector 1. -/
theorem binYonX_method_defaults_to_max_witness :
    (7 : ℤ) ≠ 2 ∧ (7 : ℤ) ≠ 3 ∧ (7 : ℤ) ≠ 4 ∧
    binYonX [1] [some 1] (some [0, 2]) none 0 0 0 0 0 0 none 7 =
      binYonX [1] [some 1] (some [0, 2]) none 0 0 0 0 0 0 none 1 := by
  refine ⟨by norm_num, by norm_num, by norm_num, ?_⟩
  exact binYonX_method_defaults_to_max [1] [some 1] (some [0, 2]) none 0 0 0 0 0 0
    none 7 (by norm_num) (by norm_num) (by norm_num)
